import Mathlib

/-!
Verification of `lib/textual_flow.py` (CBGM textual-flow module).

The file shallowly embeds the module's logic:
* `get_parents` — the best-parent selection pass (`get_parents`, lines 50-128),
  with the Coherence Data Provider (`GenealogicalCoherence.parent_combinations`)
  abstracted as a function returning `Option` (a raised exception is `none`);
* `caption` — the node relabelling of `TextualFlow.draw_diagram` (lines 268-281);
* `nodeAction` / `buildGraph` — the orphan check and graph assembly of
  `TextualFlow.draw_diagram` (lines 259-295);
* `textualFlowBuilds` — the per-unit constructor calls of `textual_flow`
  (lines 143-160);
* `planThresholds` — the skip-if-artifact-exists logic of
  `TextualFlow.__init__` (lines 167-183);
* `darken` / `COLOURMAP` — the colour helpers (lines 15-43).

Machine integers are embedded as `Int`/`Nat` (Python integers are unbounded,
so no overflow modelling is needed).
-/

/-- A parent candidate as produced by the Coherence Data Provider: the Python
tuples `(ancestor_witness_or_None, rank, generation)` consumed by
`get_parents` (`x[0]`, `x[1]`, `x[2]`). -/
structure Cand where
  id : Option String
  rank : Int
  gen : Int
deriving DecidableEq, Repr

/-- A combination of candidates jointly explaining one reading. -/
abbrev Combination := List Cand

/-- The sentinel imported in the source as `from .shared import OL_PARENT`
(`lib/shared.py` is outside the embedded file; the spec's glossary defines it
as the "top of an overlapping variant unit" sentinel, and line 123 of the
source spells the synthetic candidate's id as the literal `'OL_PARENT'`). -/
def OL_PARENT : String := "OL_PARENT"

/-- `rank = max(x[1] for x in combination)` (line 94); the `[]` case is a
dummy, the source only evaluates this on non-empty combinations. -/
def combRank : Combination → Int
  | [] => 0
  | c :: cs => cs.foldl (fun a x => max a x.rank) c.rank

/-- `gen = max(x[2] for x in combination)` (line 95); the `[]` case is a
dummy, the source only evaluates this on non-empty combinations. -/
def combGen : Combination → Int
  | [] => 0
  | c :: cs => cs.foldl (fun a x => max a x.gen) c.gen

/-- `max_acceptable_gen = 2` (line 71). -/
def maxAcceptableGen : Int := 2

/-- The running trackers of `get_parents`: `best_parents_by_gen`/`best_gen`
and `best_parents_by_rank`/`best_rank`.  The source keeps a list plus an
optional number for each tracker; the number is `None` exactly while the list
is still the initial `[]`, and otherwise equals the stored combination's own
maximum generation (resp. rank), so each tracker is one `Option Combination`. -/
structure SelState where
  byGen : Option Combination
  byRank : Option Combination
deriving DecidableEq, Repr

/-- One iteration of the combination loop of `get_parents` (lines 83-110):
skip empty combinations, discard combinations with `gen > max_acceptable_gen`,
then update the by-generation tracker (lines 99-106) and the by-rank tracker
(lines 108-110). -/
def step (s : SelState) (c : Combination) : SelState :=
  if c.isEmpty then s
  else if combGen c > maxAcceptableGen then s
  else
    ⟨match s.byGen with
      | none => some c
      | some b =>
        if combGen c < combGen b then some c
        else if combGen c = combGen b ∧ combRank c < combRank b then some c
        else some b,
     match s.byRank with
      | none => some c
      | some b => if combRank c < combRank b then some c else some b⟩

/-- Tracker state after processing a list of combinations from fresh trackers. -/
def selState (combos : List Combination) : SelState :=
  combos.foldl step ⟨none, none⟩

/-- Lines 114-119 of the source: `if best_gen == 1` use the by-generation
winner, otherwise the by-rank winner (the by-rank list is still `[]` when no
combination survived). -/
def finish (s : SelState) : List Cand :=
  match s.byGen with
  | some b => if combGen b = 1 then b else s.byRank.getD []
  | none => s.byRank.getD []

/-- Lines 121-123 of the source: if the selection is empty and the witness's
nominal parent is the `OL_PARENT` sentinel, force the synthetic candidate
`('OL_PARENT', -1, 1)`. -/
def applyFallback (w1Parent : String) (parents : List Cand) : List Cand :=
  if w1Parent = OL_PARENT ∧ parents.isEmpty then [⟨some "OL_PARENT", -1, 1⟩]
  else parents

/-- The selection produced by one pass of the combination loop with fresh
trackers, including the `OL_PARENT` fallback.  This is `get_parents`
specialised to a single connectivity value (see `get_parents_single`). -/
def selectOne (combos : List Combination) (w1Parent : String) : List Cand :=
  applyFallback w1Parent (finish (selState combos))

/-- The connectivity loop of `get_parents` (lines 73-126), threading the
tracker state `s` that the source initialises once, *before* the loop
(lines 66-69).  `provider conn = none` models
`coh.parent_combinations(...)` raising (lines 75-80): the whole call
returns `None`, discarding any selections gathered so far. -/
def get_parents_aux (provider : Int → Option (List Combination))
    (w1Parent : String) : SelState → List Int → Option (List (Int × List Cand))
  | _, [] => some []
  | s, conn :: rest =>
    match provider conn with
    | none => none
    | some combos =>
      let s2 := combos.foldl step s
      let parents := applyFallback w1Parent (finish s2)
      match get_parents_aux provider w1Parent s2 rest with
      | none => none
      | some tail => some ((conn, parents) :: tail)

/-- `get_parents` (lines 50-128), with the witness id, variant unit and
database handle dropped (they only parameterise the provider) and the
provider's answers passed in as a function of the connectivity value.  The
returned association list is the `parent_maps` dict in insertion order. -/
def get_parents (provider : Int → Option (List Combination))
    (w1Parent : String) (connectivity : List Int) :
    Option (List (Int × List Cand)) :=
  get_parents_aux provider w1Parent ⟨none, none⟩ connectivity

/-! ### Colours (lines 15-43) -/

/-- The `COLOURS` tuple (lines 15-18). -/
def COLOURS : List String :=
  ["#FF8A8A", "#FF86E3", "#FF86C2", "#FE8BF0", "#EA8DFE", "#DD88FD", "#AD8BFE",
   "#FFA4FF", "#EAA6EA", "#D698FE", "#CEA8F4", "#BCB4F3", "#A9C5EB", "#8CD1E6",
   "#8C8CFF", "#99C7FF", "#99E0FF", "#63E9FC", "#74FEF8", "#62FDCE", "#72FE95",
   "#4AE371", "#80B584", "#89FC63", "#36F200", "#66FF00", "#DFDF00", "#DFE32D"]

/-- `COLOURMAP = {x: COLOURS[(i * 10) % len(COLOURS)] for (i, x) in
enumerate(string.ascii_lowercase)}` (lines 26-27), as a lookup function:
`none` for a character that is not a lowercase ASCII letter. -/
def COLOURMAP (c : Char) : Option String :=
  if 'a' ≤ c ∧ c ≤ 'z' then COLOURS.get? (((c.toNat - 'a'.toNat) * 10) % COLOURS.length)
  else none

/-- Value of one hexadecimal digit, as accepted by Python's `int(_, 16)`. -/
def hexVal (c : Char) : Option Nat :=
  if '0' ≤ c ∧ c ≤ '9' then some (c.toNat - '0'.toNat)
  else if 'a' ≤ c ∧ c ≤ 'f' then some (c.toNat - 'a'.toNat + 10)
  else if 'A' ≤ c ∧ c ≤ 'F' then some (c.toNat - 'A'.toNat + 10)
  else none

/-- Two hexadecimal digits, `int(col[i:i+2], 16)`. -/
def hexPair (c1 c2 : Char) : Option Nat :=
  match hexVal c1, hexVal c2 with
  | some h, some l => some (16 * h + l)
  | _, _ => none

/-- Python's `str(hex(n))[2:]` for `n ≥ 0`: lowercase hexadecimal with no
leading-zero padding (`hex(0)` gives `'0x0'`, hence `"0"`). -/
def toHexNoPad (n : Nat) : String :=
  String.mk (Nat.toDigits 16 n)

/-- `darken` (lines 32-43): parse the three channel bytes of a `'#RRGGBB'`
colour, subtract `amount` flooring at 0 (`max(x - by, 0)`, which is `Nat`
subtraction), and re-encode each channel with `str(hex(new))[2:]` — i.e.
*without* zero padding.  `none` models the `assert`/`int` failure on a
malformed colour string. -/
def darken (col : String) (amount : Nat) : Option String :=
  match col.toList with
  | '#' :: r1 :: r2 :: g1 :: g2 :: b1 :: b2 :: [] =>
    match hexPair r1 r2, hexPair g1 g2, hexPair b1 b2 with
    | some r, some g, some b =>
      some ("#" ++ toHexNoPad (r - amount) ++ toHexNoPad (g - amount)
              ++ toHexNoPad (b - amount))
    | _, _, _ => none
  | _ => none

/-! ### Node captions (`draw_diagram`, lines 268-281) -/

/-- Python `'{}'.format(x[0])` where `x[0]` is a witness id or `None`. -/
def idStr : Option String → String
  | none => "None"
  | some s => s

/-- `"{}.{}".format(x[0], x[1])` (line 272): ancestor id and *rank*. -/
def candTag (p : Cand) : String := idStr p.id ++ "." ++ toString p.rank

/-- The caption stored in `rank_mapping[w1]` (lines 268-281).  Note that the
source reads index 1 of each candidate tuple — the rank — both in the
multi-parent listing (line 272) and in the single-parent test and caption
(lines 275-278). -/
def caption (w1 reading : String) : List Cand → String
  | [] => w1 ++ " (" ++ reading ++ ")"
  | [p] =>
    if p.rank = 1 then w1 ++ " (" ++ reading ++ ")"
    else w1 ++ "/" ++ toString p.rank ++ " (" ++ reading ++ ")"
  | parents => w1 ++ "/[" ++ String.intercalate ", " (parents.map candTag)
                  ++ "] (" ++ reading ++ ")"

/-! ### Orphan check and graph assembly (`draw_diagram`, lines 259-295) -/

/-- `all(x[0] is None for x in parents)` (line 283); `true` on an empty list. -/
def allNullB (parents : List Cand) : Bool :=
  parents.all (fun p => p.id.isNone)

/-- What the per-witness branch of `draw_diagram` does after computing the
caption. -/
inductive NodeAction where
  /-- all-null parents and `w1 == 'A'`: `continue` silently (lines 284-286). -/
  | silentRoot
  /-- all-null parents, other witness, `perfect_only`: `raise ForestError`
  (lines 288-289). -/
  | forestError
  /-- all-null parents, other witness, not strict: warn and `continue`
  (lines 291-292). -/
  | warnDisconnected
  /-- some candidate has a real id: fall through to the edge loop
  (lines 294-295). -/
  | addEdges
deriving DecidableEq, Repr

/-- The control flow of lines 283-295 for one witness. -/
def nodeAction (w1 : String) (parents : List Cand) (perfectOnly : Bool) :
    NodeAction :=
  if allNullB parents then
    if w1 = "A" then .silentRoot
    else if perfectOnly then .forestError
    else .warnDisconnected
  else .addEdges

/-- A graph node: `None` can become a node through `G.add_edge(p[0], w1)`
when a candidate's ancestor id is null (networkx 1.x accepts it). -/
abbrev NodeId := Option String

/-- The networkx `DiGraph` state that `draw_diagram` builds: node and edge
sets, kept as insertion-ordered duplicate-free lists. -/
structure FGraph where
  nodes : List NodeId
  edges : List (NodeId × NodeId)
deriving DecidableEq, Repr

/-- networkx `add_node`: a no-op when the node is already present. -/
def addNode (g : FGraph) (n : NodeId) : FGraph :=
  if n ∈ g.nodes then g else ⟨g.nodes ++ [n], g.edges⟩

/-- networkx `add_edge`: inserts both endpoints as nodes when missing, then
the edge (a no-op when the edge is already present). -/
def addEdge (g : FGraph) (a b : NodeId) : FGraph :=
  let g1 := addNode (addNode g a) b
  if (a, b) ∈ g1.edges then g1 else ⟨g1.nodes, g1.edges ++ [(a, b)]⟩

/-- The edge loop `for i, p in enumerate(parents): G.add_edge(p[0], w1)`
(lines 294-295). -/
def addParentEdges (g : FGraph) (w1 : String) (parents : List Cand) : FGraph :=
  parents.foldl (fun g p => addEdge g p.id (some w1)) g

/-- A row of the `cbgm` query: `(witness, label, parent)` (lines 220-226). -/
abbrev Row := String × String × String

/-- The witness loop of `draw_diagram` (lines 262-295) over the graph state.
`pm w1` is `self.parent_maps[w1][conn_value]` for this connectivity value
(already defaulted to `[]` — the failed-lookup path is modelled separately by
`lookupParents`).  The caption computation (lines 268-281) does not touch the
graph and is modelled by `caption`. -/
def buildGraphAux (pm : String → List Cand) (perfectOnly : Bool) :
    FGraph → List Row → Except String FGraph
  | g, [] => .ok g
  | g, (w1, _, _) :: rest =>
    match nodeAction w1 (pm w1) perfectOnly with
    | .forestError => .error "Nodes with no parents - forest detected"
    | .silentRoot => buildGraphAux pm perfectOnly g rest
    | .warnDisconnected => buildGraphAux pm perfectOnly g rest
    | .addEdges => buildGraphAux pm perfectOnly (addParentEdges g w1 (pm w1)) rest

/-- `draw_diagram` up to (and not including) the relabelling of line 298:
`G.add_nodes_from(witnesses)` (line 260) seeds one node per witness row, then
the per-witness loop adds edges or raises `ForestError`. -/
def buildGraph (data : List Row) (pm : String → List Cand)
    (perfectOnly : Bool) : Except String FGraph :=
  buildGraphAux pm perfectOnly ⟨data.map (fun d => some d.1), []⟩ data

/-! ### Entry point (`textual_flow`, lines 131-160) -/

/-- The arguments of one `TextualFlow(...)` construction. -/
structure BuildCall where
  unit : String
  perfectOnly : Bool
  suffix : String
deriving DecidableEq, Repr

/-- The sequence of `TextualFlow` constructions performed by `textual_flow`
for its variant units (lines 157-160; the MPI-parent branch, lines 145-148,
passes the same literals).  Both branches pass `perfect_only=False` and
`suffix=''` verbatim, ignoring the function's own `perfect_only` and `suffix`
parameters. -/
def textualFlowBuilds (variantUnits : List String)
    (perfectOnly : Bool) (suffix : String) : List BuildCall :=
  variantUnits.map (fun vu => ⟨vu, false, ""⟩)

/-! ### Artifact caching (`TextualFlow.__init__`, lines 167-183) -/

/-- `"textual_flow_{}_c{}{}.svg".format(variant_unit.replace('/', '_'),
conn_value, suffix)` (lines 170-171). -/
def outputName (variantUnit : String) (connValue : Int) (suffix : String) :
    String :=
  "textual_flow_" ++ variantUnit.replace "/" "_" ++ "_c"
    ++ toString connValue ++ suffix ++ ".svg"

/-- The loop of lines 169-179: for each connectivity value whose output file
does not already exist, keep the pair `(conn_value, output_file)`
(`self.connectivity` and `self.output_files`); existing artifacts are skipped
entirely. -/
def planThresholds (artifactExists : String → Bool) (variantUnit : String)
    (connectivity : List Int) (suffix : String) : List (Int × String) :=
  connectivity.filterMap (fun conn =>
    let f := outputName variantUnit conn suffix
    if artifactExists f then none else some (conn, f))

/-- The lookup `parents = self.parent_maps[w1][conn_value]` followed by the
`if parents is None: parents = []` guard (lines 263-266).  When `get_parents`
failed, `self.parent_maps[w1]` is `None` and the subscript itself raises
`TypeError` before the guard can run; the guard only applies to the values of
a successfully built map, and `get_parents` never stores a `None` value. -/
def lookupParents (pm : Option (List (Int × List Cand))) (connValue : Int) :
    Except String (List Cand) :=
  match pm with
  | none => .error "TypeError: NoneType object is not subscriptable"
  | some m =>
    match m.lookup connValue with
    | none => .error "KeyError"
    | some parents => .ok parents

/-! ### Spec-side notions used to state the selection claims -/

/-- The combinations that survive the filtering of one pass: non-empty and
with maximum generation within the cap. -/
def survivors (combos : List Combination) : List Combination :=
  combos.filter (fun c => !c.isEmpty && decide (combGen c ≤ maxAcceptableGen))

/-- `c` is at least as good as `d` for the by-generation ordering: strictly
lower maximum generation, or equal generation and no higher maximum rank. -/
def genRankLE (c d : Combination) : Prop :=
  combGen c < combGen d ∨ (combGen c = combGen d ∧ combRank c ≤ combRank d)

instance (c d : Combination) : Decidable (genRankLE c d) := by
  unfold genRankLE; infer_instance

/-- The by-generation winner of the claim: the earliest combination that is
at least as good as every other (best generation, ties broken by strictly
lower maximum rank, earlier input winning ties). -/
def byGenWinner (l : List Combination) : Option Combination :=
  l.find? (fun c => l.all (fun d => decide (genRankLE c d)))

/-- The by-rank winner of the claim: the first combination in input order
whose maximum rank is the overall minimum. -/
def byRankWinner (l : List Combination) : Option Combination :=
  l.find? (fun c => l.all (fun d => decide (combRank c ≤ combRank d)))

/-- Minimum of the surviving maximum generations. -/
def minGenOf : List Combination → Option Int
  | [] => none
  | c :: cs =>
    some (match minGenOf cs with
          | none => combGen c
          | some g => min (combGen c) g)

/-- Fresh-tracker evaluation of the concatenated combination lists of all
thresholds up to and including each one (the behaviour the persistent
trackers of `get_parents` actually produce). -/
def accumSelect (combosOf : Int → List Combination) (w1Parent : String) :
    List Combination → List Int → List (Int × List Cand)
  | _, [] => []
  | acc, conn :: rest =>
    (conn, selectOne (acc ++ combosOf conn) w1Parent)
      :: accumSelect combosOf w1Parent (acc ++ combosOf conn) rest

/-! ### First-lexicographic-minimum machinery -/

/-- Strict lexicographic order on `Int × Int` score pairs. -/
def lexLt (a b : Int × Int) : Prop :=
  a.1 < b.1 ∨ (a.1 = b.1 ∧ a.2 < b.2)

instance (a b : Int × Int) : Decidable (lexLt a b) := by
  unfold lexLt; infer_instance

/-- Score pair of the by-generation tracker. -/
def kGen (c : Combination) : Int × Int := (combGen c, combRank c)

/-- Score pair of the by-rank tracker (rank only). -/
def kRank (c : Combination) : Int × Int := (combRank c, 0)

/-- One tracker update: replace the stored best exactly on strict
improvement. -/
def updBest (k : Combination → Int × Int) (a : Option Combination)
    (c : Combination) : Option Combination :=
  match a with
  | none => some c
  | some b => if lexLt (k c) (k b) then some c else some b

/-- The earliest minimum of a list under the score `k`. -/
def firstBest (k : Combination → Int × Int) :
    List Combination → Option Combination
  | [] => none
  | c :: cs =>
    match firstBest k cs with
    | none => some c
    | some m => if lexLt (k m) (k c) then some m else some c

theorem lexLt_trans {a b c : Int × Int} (h1 : lexLt a b) (h2 : lexLt b c) :
    lexLt a c := by
  rcases a with ⟨a1, a2⟩; rcases b with ⟨b1, b2⟩; rcases c with ⟨c1, c2⟩
  simp only [lexLt] at *; omega

theorem lexLt_irrefl (a : Int × Int) : ¬ lexLt a a := by
  rcases a with ⟨a1, a2⟩; simp only [lexLt]; omega

theorem lexLt_negtrans {a b c : Int × Int} (h1 : ¬ lexLt a b)
    (h2 : ¬ lexLt b c) : ¬ lexLt a c := by
  rcases a with ⟨a1, a2⟩; rcases b with ⟨b1, b2⟩; rcases c with ⟨c1, c2⟩
  simp only [lexLt] at *; omega

theorem lexLt_of_not_of_lt {a b c : Int × Int} (h1 : ¬ lexLt a b)
    (h2 : lexLt a c) : lexLt b c := by
  rcases a with ⟨a1, a2⟩; rcases b with ⟨b1, b2⟩; rcases c with ⟨c1, c2⟩
  simp only [lexLt] at *; omega

/-! ### Tracker characterisation -/

theorem step_byGen (s : SelState) (c : Combination) :
    (step s c).byGen =
      if c.isEmpty ∨ combGen c > maxAcceptableGen then s.byGen
      else updBest kGen s.byGen c := by
  rcases s with ⟨bg, br⟩
  cases bg <;> cases br <;>
    simp only [step, updBest, lexLt, kGen] <;>
    split_ifs <;> first | rfl | tauto

theorem step_byRank (s : SelState) (c : Combination) :
    (step s c).byRank =
      if c.isEmpty ∨ combGen c > maxAcceptableGen then s.byRank
      else updBest kRank s.byRank c := by
  rcases s with ⟨bg, br⟩
  cases bg <;> cases br <;>
    simp only [step, updBest, lexLt, kRank] <;>
    split_ifs <;> first | rfl | tauto

theorem foldl_step_byGen (l : List Combination) (s : SelState) :
    (l.foldl step s).byGen =
      l.foldl (fun a c => if c.isEmpty ∨ combGen c > maxAcceptableGen then a
                          else updBest kGen a c) s.byGen := by
  induction l generalizing s with
  | nil => rfl
  | cons c l ih =>
    rw [List.foldl_cons, List.foldl_cons, ih, step_byGen]

theorem foldl_step_byRank (l : List Combination) (s : SelState) :
    (l.foldl step s).byRank =
      l.foldl (fun a c => if c.isEmpty ∨ combGen c > maxAcceptableGen then a
                          else updBest kRank a c) s.byRank := by
  induction l generalizing s with
  | nil => rfl
  | cons c l ih =>
    rw [List.foldl_cons, List.foldl_cons, ih, step_byRank]

theorem foldl_updBest_filter (k : Combination → Int × Int)
    (l : List Combination) (a : Option Combination) :
    l.foldl (fun a c => if c.isEmpty ∨ combGen c > maxAcceptableGen then a
                        else updBest k a c) a
      = (survivors l).foldl (updBest k) a := by
  induction l generalizing a with
  | nil => rfl
  | cons c l ih =>
    by_cases h : c.isEmpty ∨ combGen c > maxAcceptableGen
    · have hf : survivors (c :: l) = survivors l := by
        have hb : (!c.isEmpty && decide (combGen c ≤ maxAcceptableGen)) = false := by
          rcases h with h | h
          · simp [h]
          · have : ¬ combGen c ≤ maxAcceptableGen := by omega
            simp [this]
        simp [survivors, List.filter_cons, hb]
      rw [List.foldl_cons, if_pos h, ih, hf]
    · have hf : survivors (c :: l) = c :: survivors l := by
        push_neg at h
        have hb : (!c.isEmpty && decide (combGen c ≤ maxAcceptableGen)) = true := by
          have : combGen c ≤ maxAcceptableGen := by omega
          simp [h.1, this]
        simp [survivors, List.filter_cons, hb]
      have h' : ¬ (c.isEmpty ∨ combGen c > maxAcceptableGen) := h
      rw [List.foldl_cons, if_neg h', ih, hf, List.foldl_cons]

theorem selState_byGen (combos : List Combination) :
    (selState combos).byGen = (survivors combos).foldl (updBest kGen) none := by
  unfold selState
  rw [foldl_step_byGen, foldl_updBest_filter]

theorem selState_byRank (combos : List Combination) :
    (selState combos).byRank = (survivors combos).foldl (updBest kRank) none := by
  unfold selState
  rw [foldl_step_byRank, foldl_updBest_filter]

theorem lexLt_asymm {a b : Int × Int} (h : lexLt a b) : ¬ lexLt b a :=
  fun h2 => lexLt_irrefl a (lexLt_trans h h2)

theorem firstBest_cons (k : Combination → Int × Int) (c : Combination)
    (cs : List Combination) :
    firstBest k (c :: cs) =
      match firstBest k cs with
      | none => some c
      | some m => if lexLt (k m) (k c) then some m else some c := rfl

theorem firstBest_cons_none {k : Combination → Int × Int} {cs : List Combination}
    (c : Combination) (hfl : firstBest k cs = none) :
    firstBest k (c :: cs) = some c := by
  rw [firstBest_cons, hfl]

theorem firstBest_cons_some {k : Combination → Int × Int} {cs : List Combination}
    {m2 : Combination} (c : Combination) (hfl : firstBest k cs = some m2) :
    firstBest k (c :: cs) = if lexLt (k m2) (k c) then some m2 else some c := by
  rw [firstBest_cons, hfl]

theorem firstBest_eq_none (k : Combination → Int × Int) (l : List Combination) :
    firstBest k l = none ↔ l = [] := by
  cases l with
  | nil => simp [firstBest]
  | cons c cs =>
    cases hfl : firstBest k cs with
    | none => simp [firstBest_cons_none c hfl]
    | some m =>
      rw [firstBest_cons_some c hfl]
      by_cases h : lexLt (k m) (k c) <;> simp [h]

theorem firstBest_mem (k : Combination → Int × Int) {l : List Combination}
    {m : Combination} (h : firstBest k l = some m) : m ∈ l := by
  induction l with
  | nil => simp [firstBest] at h
  | cons c cs ih =>
    cases hfl : firstBest k cs with
    | none =>
      rw [firstBest_cons_none c hfl] at h
      cases h
      exact List.mem_cons_self _ _
    | some m2 =>
      rw [firstBest_cons_some c hfl] at h
      by_cases h1 : lexLt (k m2) (k c)
      · rw [if_pos h1] at h
        cases h
        exact List.mem_cons_of_mem _ (ih hfl)
      · rw [if_neg h1] at h
        cases h
        exact List.mem_cons_self _ _

theorem firstBest_min (k : Combination → Int × Int) {l : List Combination}
    {m : Combination} (h : firstBest k l = some m) :
    ∀ d ∈ l, ¬ lexLt (k d) (k m) := by
  induction l generalizing m with
  | nil => simp [firstBest] at h
  | cons c cs ih =>
    cases hfl : firstBest k cs with
    | none =>
      rw [firstBest_cons_none c hfl] at h
      cases h
      have hnil : cs = [] := (firstBest_eq_none k cs).mp hfl
      subst hnil
      intro d hd
      rcases List.mem_singleton.mp hd with rfl
      exact lexLt_irrefl _
    | some m2 =>
      rw [firstBest_cons_some c hfl] at h
      by_cases h1 : lexLt (k m2) (k c)
      · rw [if_pos h1] at h
        cases h
        intro d hd
        rcases List.mem_cons.mp hd with rfl | hd
        · exact lexLt_asymm h1
        · exact ih hfl d hd
      · rw [if_neg h1] at h
        cases h
        intro d hd
        rcases List.mem_cons.mp hd with rfl | hd
        · exact lexLt_irrefl _
        · intro hdc
          exact h1 (lexLt_of_not_of_lt (ih hfl d hd) hdc)

theorem updBest_some (k : Combination → Int × Int) (b c : Combination) :
    updBest k (some b) c = if lexLt (k c) (k b) then some c else some b := rfl

theorem firstBest_nil (k : Combination → Int × Int) :
    firstBest k ([] : List Combination) = none := rfl

theorem foldl_updBest_some (k : Combination → Int × Int)
    (l : List Combination) (b : Combination) :
    l.foldl (updBest k) (some b) = firstBest k (b :: l) := by
  induction l generalizing b with
  | nil =>
    rw [firstBest_cons_none b (firstBest_nil k)]
    rfl
  | cons c l ih =>
    rw [List.foldl_cons, updBest_some]
    cases hfl : firstBest k l with
    | none =>
      have hnil : l = [] := (firstBest_eq_none k l).mp hfl
      subst hnil
      rw [firstBest_cons_some b (firstBest_cons_none c (firstBest_nil k))]
      by_cases h2 : lexLt (k c) (k b) <;> simp [h2, firstBest_cons_none]
    | some m =>
      have hcl : firstBest k (c :: l) = if lexLt (k m) (k c) then some m else some c :=
        firstBest_cons_some c hfl
      by_cases h1 : lexLt (k m) (k c)
      · rw [if_pos h1] at hcl
        rw [firstBest_cons_some b hcl]
        by_cases h2 : lexLt (k c) (k b)
        · rw [if_pos h2, ih, hcl, if_pos (lexLt_trans h1 h2)]
        · rw [if_neg h2, ih, firstBest_cons_some b hfl]
      · rw [if_neg h1] at hcl
        rw [firstBest_cons_some b hcl]
        by_cases h2 : lexLt (k c) (k b)
        · rw [if_pos h2, ih, hcl]
        · rw [if_neg h2, ih, firstBest_cons_some b hfl,
            if_neg (lexLt_negtrans h1 h2)]

theorem foldl_updBest_none (k : Combination → Int × Int)
    (l : List Combination) :
    l.foldl (updBest k) none = firstBest k l := by
  cases l with
  | nil => rfl
  | cons c l =>
    rw [List.foldl_cons]
    exact foldl_updBest_some k l c

theorem find?_congr {α : Type} {p q : α → Bool} (l : List α)
    (h : ∀ x ∈ l, p x = q x) : l.find? p = l.find? q := by
  induction l with
  | nil => rfl
  | cons a l ih =>
    have ha := h a (List.mem_cons_self a l)
    cases hpa : p a
    · have hqa : q a = false := by rw [← ha, hpa]
      rw [List.find?_cons_of_neg _ (by simp [hpa]),
        List.find?_cons_of_neg _ (by simp [hqa])]
      exact ih fun x hx => h x (List.mem_cons_of_mem a hx)
    · have hqa : q a = true := by rw [← ha, hpa]
      rw [List.find?_cons_of_pos _ (by simp [hpa]),
        List.find?_cons_of_pos _ (by simp [hqa])]

theorem firstBest_eq_findMin (k : Combination → Int × Int)
    (l : List Combination) :
    firstBest k l
      = l.find? (fun c => l.all (fun d => !decide (lexLt (k d) (k c)))) := by
  induction l with
  | nil => rfl
  | cons c cs ih =>
    by_cases hc : ∀ d ∈ c :: cs, ¬ lexLt (k d) (k c)
    · have hpc : ((c :: cs).all (fun d => !decide (lexLt (k d) (k c)))) = true := by
        rw [List.all_eq_true]
        intro d hd
        simp [hc d hd]
      rw [List.find?_cons_of_pos _ (by simp only [hpc])]
      cases hfl : firstBest k cs with
      | none => exact firstBest_cons_none c hfl
      | some m =>
        rw [firstBest_cons_some c hfl]
        have hm : m ∈ cs := firstBest_mem k hfl
        rw [if_neg (hc m (List.mem_cons_of_mem c hm))]
    · push_neg at hc
      obtain ⟨e, he, hec⟩ := hc
      have hecs : ∃ e2 ∈ cs, lexLt (k e2) (k c) := by
        rcases List.mem_cons.mp he with rfl | h'
        · exact absurd hec (lexLt_irrefl _)
        · exact ⟨e, h', hec⟩
      obtain ⟨e2, he2, he2c⟩ := hecs
      have hcsne : cs ≠ [] := by rintro rfl; simp at he2
      obtain ⟨m, hm⟩ : ∃ m, firstBest k cs = some m := by
        cases hfl : firstBest k cs with
        | none => exact absurd ((firstBest_eq_none k cs).mp hfl) hcsne
        | some m => exact ⟨m, rfl⟩
      have hmc : lexLt (k m) (k c) :=
        lexLt_of_not_of_lt (firstBest_min k hm e2 he2) he2c
      rw [firstBest_cons_some c hm, if_pos hmc]
      have hpc : ((c :: cs).all (fun d => !decide (lexLt (k d) (k c)))) = false := by
        rw [Bool.eq_false_iff]
        intro hall
        have := List.all_eq_true.mp hall m (List.mem_cons_of_mem c (firstBest_mem k hm))
        simp at this
        exact this hmc
      rw [List.find?_cons_of_neg _ (by simp only [hpc, Bool.false_eq_true, not_false_eq_true])]
      have hpt : ∀ x ∈ cs,
          ((c :: cs).all (fun d => !decide (lexLt (k d) (k x))))
            = (cs.all (fun d => !decide (lexLt (k d) (k x)))) := by
        intro x hx
        cases hq : cs.all (fun d => !decide (lexLt (k d) (k x))) with
        | true =>
          have hnotc : ¬ lexLt (k c) (k x) := by
            intro hcx
            have hmx : lexLt (k m) (k x) := lexLt_trans hmc hcx
            have hq' := List.all_eq_true.mp hq m (firstBest_mem k hm)
            simp at hq'
            exact hq' hmx
          simp [List.all_cons, hq, hnotc]
        | false =>
          simp [List.all_cons, hq]
      rw [find?_congr cs hpt, ← ih, hm]

theorem genRankLE_decide (c d : Combination) :
    (decide (genRankLE c d)) = (!decide (lexLt (kGen d) (kGen c))) := by
  by_cases h : genRankLE c d
  · have h2 : ¬ lexLt (kGen d) (kGen c) := by
      simp only [genRankLE] at h
      simp only [lexLt, kGen]
      omega
    simp [h, h2]
  · have h2 : lexLt (kGen d) (kGen c) := by
      simp only [genRankLE] at h
      simp only [lexLt, kGen]
      omega
    simp [h, h2]

theorem rankLE_decide (c d : Combination) :
    (decide (combRank c ≤ combRank d)) = (!decide (lexLt (kRank d) (kRank c))) := by
  by_cases h : combRank c ≤ combRank d
  · have h2 : ¬ lexLt (kRank d) (kRank c) := by
      simp only [lexLt, kRank]
      omega
    simp [h, h2]
  · have h2 : lexLt (kRank d) (kRank c) := by
      simp only [lexLt, kRank]
      omega
    simp [h, h2]

theorem byGenWinner_eq (l : List Combination) :
    byGenWinner l = firstBest kGen l := by
  have hfn : (fun c => l.all (fun d => decide (genRankLE c d)))
      = (fun c => l.all (fun d => !decide (lexLt (kGen d) (kGen c)))) := by
    funext c
    congr 1
    funext d
    exact genRankLE_decide c d
  rw [byGenWinner, hfn, firstBest_eq_findMin]

theorem byRankWinner_eq (l : List Combination) :
    byRankWinner l = firstBest kRank l := by
  have hfn : (fun c => l.all (fun d => decide (combRank c ≤ combRank d)))
      = (fun c => l.all (fun d => !decide (lexLt (kRank d) (kRank c)))) := by
    funext c
    congr 1
    funext d
    exact rankLE_decide c d
  rw [byRankWinner, hfn, firstBest_eq_findMin]

theorem minGenOf_eq_none (l : List Combination) :
    minGenOf l = none ↔ l = [] := by
  cases l with
  | nil => simp [minGenOf]
  | cons c cs => simp [minGenOf]

theorem minGenOf_spec {l : List Combination} {g : Int}
    (h : minGenOf l = some g) :
    (∃ c ∈ l, combGen c = g) ∧ ∀ d ∈ l, g ≤ combGen d := by
  induction l generalizing g with
  | nil => simp [minGenOf] at h
  | cons c cs ih =>
    cases hfl : minGenOf cs with
    | none =>
      have hnil : cs = [] := (minGenOf_eq_none cs).mp hfl
      subst hnil
      simp only [minGenOf] at h
      cases h
      exact ⟨⟨c, List.mem_singleton.mpr rfl, rfl⟩, by
        intro d hd
        rcases List.mem_singleton.mp hd with rfl
        exact le_refl _⟩
    | some g2 =>
      simp only [minGenOf, hfl] at h
      cases h
      obtain ⟨⟨c2, hc2, hc2g⟩, hmin⟩ := ih hfl
      constructor
      · by_cases hle : combGen c ≤ g2
        · exact ⟨c, List.mem_cons_self _ _, by omega⟩
        · exact ⟨c2, List.mem_cons_of_mem _ hc2, by omega⟩
      · intro d hd
        rcases List.mem_cons.mp hd with rfl | hd
        · omega
        · have := hmin d hd
          omega

theorem firstBest_gen_eq_min {S : List Combination} {m : Combination} {g : Int}
    (hm : firstBest kGen S = some m) (hg : minGenOf S = some g) :
    combGen m = g := by
  obtain ⟨⟨c0, hc0, hc0g⟩, hmin⟩ := minGenOf_spec hg
  have h1 : g ≤ combGen m := hmin m (firstBest_mem _ hm)
  have h2 : ¬ lexLt (kGen c0) (kGen m) := firstBest_min kGen hm c0 hc0
  simp only [lexLt, kGen] at h2
  omega

theorem mem_survivors {l : List Combination} {c : Combination}
    (h : c ∈ survivors l) :
    c.isEmpty = false ∧ combGen c ≤ maxAcceptableGen := by
  have h2 := (List.mem_filter.mp h).2
  simp only [Bool.and_eq_true, Bool.not_eq_true', decide_eq_true_eq] at h2
  exact h2

theorem finish_eq {s : SelState} {b r : Combination}
    (hb : s.byGen = some b) (hr : s.byRank = some r) :
    finish s = if combGen b = 1 then b else r := by
  rcases s with ⟨bg, br⟩
  cases hb
  cases hr
  rfl

theorem applyFallback_of_ne_nil {w1Parent : String} {parents : List Cand}
    (h : parents.isEmpty = false) :
    applyFallback w1Parent parents = parents := by
  unfold applyFallback
  rw [if_neg]
  rintro ⟨-, h2⟩
  rw [h] at h2
  exact Bool.false_ne_true h2

/-- Claim C1: for every sequence of candidate combinations processed in one
selection pass with generation cap 2 (empty combinations skipped,
combinations whose maximum generation exceeds 2 discarded), provided some
combination survives: if the minimal surviving generation is 1, the final
ParentSelection is the by-generation winner (best generation, ties broken by
strictly lower maximum rank, earlier input winning ties); otherwise it is the
first combination in input order whose maximum rank is the overall minimum
among survivors, regardless of its generation. -/
theorem c1_single_pass_selection (combos : List Combination)
    (w1Parent : String) (hne : survivors combos ≠ []) :
    some (selectOne combos w1Parent) =
      if minGenOf (survivors combos) = some 1
      then byGenWinner (survivors combos)
      else byRankWinner (survivors combos) := by
  have hg : (selState combos).byGen = firstBest kGen (survivors combos) := by
    rw [selState_byGen, foldl_updBest_none]
  have hr : (selState combos).byRank = firstBest kRank (survivors combos) := by
    rw [selState_byRank, foldl_updBest_none]
  obtain ⟨m, hm⟩ : ∃ m, firstBest kGen (survivors combos) = some m := by
    cases hfl : firstBest kGen (survivors combos) with
    | none => exact absurd ((firstBest_eq_none _ _).mp hfl) hne
    | some m => exact ⟨m, rfl⟩
  obtain ⟨m2, hm2⟩ : ∃ m2, firstBest kRank (survivors combos) = some m2 := by
    cases hfl : firstBest kRank (survivors combos) with
    | none => exact absurd ((firstBest_eq_none _ _).mp hfl) hne
    | some m2 => exact ⟨m2, rfl⟩
  obtain ⟨g, hgm⟩ : ∃ g, minGenOf (survivors combos) = some g := by
    cases hfl : minGenOf (survivors combos) with
    | none => exact absurd ((minGenOf_eq_none _).mp hfl) hne
    | some g => exact ⟨g, rfl⟩
  have hmg : combGen m = g := firstBest_gen_eq_min hm hgm
  have hg' : (selState combos).byGen = some m := by rw [hg, hm]
  have hr' : (selState combos).byRank = some m2 := by rw [hr, hm2]
  have hmne : (m : List Cand).isEmpty = false :=
    (mem_survivors (firstBest_mem _ hm)).1
  have hm2ne : (m2 : List Cand).isEmpty = false :=
    (mem_survivors (firstBest_mem _ hm2)).1
  unfold selectOne
  rw [finish_eq hg' hr']
  by_cases h1 : minGenOf (survivors combos) = some 1
  · rw [if_pos h1]
    rw [hgm] at h1
    injection h1 with h1g
    have hcm1 : combGen m = 1 := by omega
    rw [if_pos hcm1, applyFallback_of_ne_nil hmne, byGenWinner_eq, hm]
  · rw [if_neg h1]
    have hcm1 : combGen m ≠ 1 := by
      intro hh
      exact h1 (by rw [hgm, ← hmg, hh])
    rw [if_neg hcm1, applyFallback_of_ne_nil hm2ne, byRankWinner_eq, hm2]

theorem c1_single_pass_selection_witness :
    some (selectOne [[⟨some "A", 3, 2⟩], [⟨some "B", 1, 2⟩]] "X") =
      if minGenOf (survivors [[⟨some "A", 3, 2⟩], [⟨some "B", 1, 2⟩]]) = some 1
      then byGenWinner (survivors [[⟨some "A", 3, 2⟩], [⟨some "B", 1, 2⟩]])
      else byRankWinner (survivors [[⟨some "A", 3, 2⟩], [⟨some "B", 1, 2⟩]]) :=
  c1_single_pass_selection [[⟨some "A", 3, 2⟩], [⟨some "B", 1, 2⟩]] "X"
    (by decide)

theorem get_parents_aux_accum (provider : Int → Option (List Combination))
    (combosOf : Int → List Combination) (w1Parent : String)
    (hp : ∀ conn, provider conn = some (combosOf conn)) :
    ∀ (connectivity : List Int) (acc : List Combination),
      get_parents_aux provider w1Parent (selState acc) connectivity
        = some (accumSelect combosOf w1Parent acc connectivity) := by
  intro connectivity
  induction connectivity with
  | nil => intro acc; rfl
  | cons t ts ih =>
    intro acc
    have hs2 : (combosOf t).foldl step (selState acc)
        = selState (acc ++ combosOf t) := by
      rw [selState, selState, List.foldl_append]
    simp only [get_parents_aux, hp t, hs2, ih (acc ++ combosOf t), accumSelect]
    rfl

/-- Claim C2 counterexample: with thresholds `[1, 2]`, a provider returning
one generation-1 combination for threshold 1 and *no* combinations for
threshold 2, the selection recorded for threshold 2 is the threshold-1
combination — not the result of evaluating threshold 2 alone with fresh
trackers, which is the empty selection.  The trackers initialised before the
connectivity loop (source lines 66-69) leak state across thresholds. -/
theorem c2_counterexample :
    get_parents
        (fun conn => if conn = 1 then some [[⟨some "A", 5, 1⟩]] else some [])
        "P" [1, 2]
      = some [(1, [⟨some "A", 5, 1⟩]), (2, [⟨some "A", 5, 1⟩])] ∧
    selectOne [] "P" = [] ∧
    ([⟨some "A", 5, 1⟩] : List Cand) ≠ [] := by
  refine ⟨by decide, rfl, by decide⟩

/-- Claim C2 (amended): the tracker state of `get_parents` carries over
across thresholds within one call, so the ParentSelection recorded for each
threshold equals the fresh-tracker evaluation of the *concatenation* of the
provider's combination lists for all thresholds up to and including that
one, in input order — not of that threshold's list alone. -/
theorem c2_tracker_carryover (provider : Int → Option (List Combination))
    (combosOf : Int → List Combination) (w1Parent : String)
    (connectivity : List Int)
    (hp : ∀ conn, provider conn = some (combosOf conn)) :
    get_parents provider w1Parent connectivity
      = some (accumSelect combosOf w1Parent [] connectivity) :=
  get_parents_aux_accum provider combosOf w1Parent hp connectivity []

theorem c2_tracker_carryover_witness :
    get_parents
        (fun conn => some (if conn = 1 then [[⟨some "A", 5, 1⟩]] else []))
        "P" [1, 2]
      = some (accumSelect
          (fun conn => if conn = 1 then [[⟨some "A", 5, 1⟩]] else [])
          "P" [] [1, 2]) :=
  c2_tracker_carryover
    (fun conn => some (if conn = 1 then [[⟨some "A", 5, 1⟩]] else []))
    (fun conn => if conn = 1 then [[⟨some "A", 5, 1⟩]] else [])
    "P" [1, 2] (fun _ => rfl)

theorem finish_none {s : SelState} (hb : s.byGen = none)
    (hr : s.byRank = none) : finish s = [] := by
  rcases s with ⟨bg, br⟩
  cases hb
  cases hr
  rfl

/-- Claim C7: in a single selection pass, if no combination survives
filtering and the witness's nominal parent is the overlapping-unit sentinel,
the resulting ParentSelection is exactly the single synthetic candidate
`('OL_PARENT', -1, 1)`; if no combination survives and the nominal parent is
not the sentinel, the ParentSelection is empty. -/
theorem c7_empty_fallback (combos : List Combination) (w1Parent : String)
    (hs : survivors combos = []) :
    (w1Parent = OL_PARENT →
      selectOne combos w1Parent = [⟨some "OL_PARENT", -1, 1⟩]) ∧
    (w1Parent ≠ OL_PARENT → selectOne combos w1Parent = []) := by
  have hg : (selState combos).byGen = none := by
    rw [selState_byGen, hs]
    rfl
  have hr : (selState combos).byRank = none := by
    rw [selState_byRank, hs]
    rfl
  unfold selectOne
  rw [finish_none hg hr]
  constructor
  · intro hw
    unfold applyFallback
    rw [if_pos ⟨hw, rfl⟩]
  · intro hw
    unfold applyFallback
    rw [if_neg (fun hc => hw hc.1)]

theorem c7_empty_fallback_witness :
    selectOne [[]] OL_PARENT = [⟨some "OL_PARENT", -1, 1⟩] :=
  (c7_empty_fallback [[]] OL_PARENT (by decide)).1 rfl

/-- Claim C6: a witness whose selection is empty or whose candidates all
have a null ancestor id never raises a forest error when the witness id is
`"A"`; for any other witness id such a selection raises the forest error if
and only if the strict (perfect-only) flag is set, and with the flag unset
the node is left disconnected with a warning. -/
theorem c6_orphan_rule (w1 : String) (parents : List Cand)
    (perfectOnly : Bool) (hnull : allNullB parents = true) :
    (w1 = "A" → nodeAction w1 parents perfectOnly ≠ NodeAction.forestError) ∧
    (w1 ≠ "A" →
      ((nodeAction w1 parents perfectOnly = NodeAction.forestError
          ↔ perfectOnly = true) ∧
       (perfectOnly = false →
          nodeAction w1 parents perfectOnly = NodeAction.warnDisconnected))) := by
  unfold nodeAction
  rw [if_pos hnull]
  constructor
  · intro hA
    rw [if_pos hA]
    intro h
    cases h
  · intro hA
    rw [if_neg hA]
    cases perfectOnly <;> simp

theorem c6_orphan_rule_witness :
    (nodeAction "B" ([] : List Cand) true = NodeAction.forestError
      ↔ true = true) :=
  ((c6_orphan_rule "B" [] true rfl).2 (by decide)).1

/-- Claim C3 counterexample: a single-candidate selection with generation 1
but rank 5 is captioned `"C/5 (a)"`, not `"C (a)"` as the claim's
generation-based rule requires — `draw_diagram` reads the candidate's rank
(tuple index 1), not its generation. -/
theorem c3_counterexample :
    (⟨some "D", 5, 1⟩ : Cand).gen = 1 ∧
    caption "C" "a" [⟨some "D", 5, 1⟩] = "C/5 (a)" ∧
    caption "C" "a" [⟨some "D", 5, 1⟩] ≠ "C (a)" :=
  ⟨rfl, by decide, by decide⟩

/-- Claim C3 (amended): the caption is keyed on the candidate count and the
candidates' *ranks*: zero candidates give `"id (reading)"`; one candidate
with rank 1 gives `"id (reading)"`; one candidate with rank other than 1
gives `"id/rank (reading)"`; several candidates give
`"id/[p1.rank1, p2.rank2, ...] (reading)"`, listing each candidate's
ancestor id (null printed as `None`) and its rank. -/
theorem c3_caption_by_rank (w1 reading : String) (parents : List Cand) :
    (parents = [] → caption w1 reading parents
        = w1 ++ " (" ++ reading ++ ")") ∧
    (∀ p, parents = [p] →
      ((p.rank = 1 → caption w1 reading parents
          = w1 ++ " (" ++ reading ++ ")") ∧
       (p.rank ≠ 1 → caption w1 reading parents
          = w1 ++ "/" ++ toString p.rank ++ " (" ++ reading ++ ")"))) ∧
    (1 < parents.length → caption w1 reading parents
      = w1 ++ "/[" ++ String.intercalate ", " (parents.map candTag)
          ++ "] (" ++ reading ++ ")") := by
  refine ⟨?_, ?_, ?_⟩
  · rintro rfl
    rfl
  · rintro p rfl
    constructor
    · intro h1
      simp [caption, h1]
    · intro h1
      simp [caption, h1]
  · intro hlen
    match parents, hlen with
    | p1 :: p2 :: rest, _ => rfl

theorem c3_caption_by_rank_witness :
    caption "B" "b" ([] : List Cand) = "B" ++ " (" ++ "b" ++ ")" :=
  (c3_caption_by_rank "B" "b" []).1 rfl

/-- Claim C4 (code-bug evidence): a provider failure makes `get_parents`
return `None` for the whole witness — even when an earlier threshold had
already succeeded, so no partially populated map escapes — but
`draw_diagram` then evaluates `self.parent_maps[w1][conn_value]` on that
`None` and raises `TypeError` before its dead `if parents is None` guard can
run, crashing the unit's build instead of leaving the node disconnected. -/
theorem c4_provider_failure_crash :
    get_parents (fun _ => none) "P" [3] = none ∧
    get_parents
        (fun conn => if conn = 3 then some [[⟨some "A", 2, 1⟩]] else none)
        "P" [3, 4] = none ∧
    lookupParents none 3
      = Except.error "TypeError: NoneType object is not subscriptable" :=
  ⟨rfl, by decide, rfl⟩

/-- Claim C5 (code-bug evidence): `textual_flow` constructs every per-unit
`TextualFlow` with the literals `perfect_only=False, suffix=''`, discarding
the caller-supplied flag and suffix. -/
theorem c5_flag_suffix_dropped :
    textualFlowBuilds ["u1", "u2"] true "_x"
      = [⟨"u1", false, ""⟩, ⟨"u2", false, ""⟩] := rfl

/-- Claim C10: the palette colour for reading label `'i'` is `"#36F200"`,
and `darken` re-encodes its channels without zero padding, so the border
colour is the 5-character string `"#0a70"` — shorter than 7 characters and
therefore not of the form `#RRGGBB`. -/
theorem c10_darken_short :
    COLOURMAP 'i' = some "#36F200" ∧
    darken "#36F200" 75 = some "#0a70" ∧
    ("#0a70" : String).length < 7 :=
  ⟨by decide, by decide, by decide⟩

/-- Claim C9: for each (variant unit, threshold) pair, if the artifact named
`textual_flow_<unit with slashes replaced by underscores>_c<threshold><suffix>.svg`
already exists, the threshold is dropped from the work plan entirely (no
entry, no output file); a threshold whose artifact is absent is kept,
paired with exactly that output name. -/
theorem c9_skip_existing (artifactExists : String → Bool)
    (variantUnit : String) (connectivity : List Int) (suffix : String)
    (conn : Int) (hc : conn ∈ connectivity) :
    (artifactExists (outputName variantUnit conn suffix) = true →
      ∀ f, (conn, f) ∉ planThresholds artifactExists variantUnit connectivity suffix) ∧
    (artifactExists (outputName variantUnit conn suffix) = false →
      (conn, outputName variantUnit conn suffix)
        ∈ planThresholds artifactExists variantUnit connectivity suffix) := by
  constructor
  · intro hex f hmem
    simp only [planThresholds, List.mem_filterMap] at hmem
    obtain ⟨c2, hc2, heq⟩ := hmem
    by_cases hex2 : artifactExists (outputName variantUnit c2 suffix) = true
    · rw [if_pos hex2] at heq
      cases heq
    · rw [if_neg hex2] at heq
      have hcc : c2 = conn := congrArg Prod.fst (Option.some.inj heq)
      rw [hcc] at hex2
      exact hex2 hex
  · intro hex
    simp only [planThresholds, List.mem_filterMap]
    refine ⟨conn, hc, ?_⟩
    have hne : ¬ (artifactExists (outputName variantUnit conn suffix) = true) := by
      rw [hex]
      exact Bool.false_ne_true
    rw [if_neg hne]

theorem c9_skip_existing_witness :
    ((3 : Int), outputName "1/2" 3 "_s")
      ∈ planThresholds (fun _ => false) "1/2" [3] "_s" :=
  (c9_skip_existing (fun _ => false) "1/2" [3] "_s" 3 (by decide)).2 rfl

theorem addNode_edges (g : FGraph) (n : NodeId) :
    (addNode g n).edges = g.edges := by
  unfold addNode
  split_ifs <;> rfl

theorem mem_addNode_nodes (g : FGraph) (n m : NodeId) :
    m ∈ (addNode g n).nodes ↔ m ∈ g.nodes ∨ m = n := by
  unfold addNode
  split_ifs with h
  · constructor
    · exact Or.inl
    · rintro (hm | rfl)
      · exact hm
      · exact h
  · simp [List.mem_append]

theorem addEdge_nodes (g : FGraph) (a b m : NodeId) :
    m ∈ (addEdge g a b).nodes ↔ m ∈ g.nodes ∨ m = a ∨ m = b := by
  simp only [addEdge]
  split_ifs <;> simp [mem_addNode_nodes, or_assoc]

theorem addEdge_edges (g : FGraph) (a b : NodeId) (e : NodeId × NodeId) :
    e ∈ (addEdge g a b).edges ↔ e ∈ g.edges ∨ e = (a, b) := by
  have hg1 : (addNode (addNode g a) b).edges = g.edges := by
    rw [addNode_edges, addNode_edges]
  simp only [addEdge]
  split_ifs with h
  · rw [hg1] at h
    rw [hg1]
    constructor
    · exact Or.inl
    · rintro (hm | rfl)
      · exact hm
      · exact h
  · simp [hg1, List.mem_append]

theorem addParentEdges_cons (g : FGraph) (w1 : String) (p : Cand)
    (ps : List Cand) :
    addParentEdges g w1 (p :: ps)
      = addParentEdges (addEdge g p.id (some w1)) w1 ps := rfl

theorem addParentEdges_edges (w1 : String) (parents : List Cand)
    (g : FGraph) (e : NodeId × NodeId) :
    e ∈ (addParentEdges g w1 parents).edges
      ↔ e ∈ g.edges ∨ ∃ p ∈ parents, e = (p.id, some w1) := by
  induction parents generalizing g with
  | nil => simp [addParentEdges]
  | cons p ps ih =>
    rw [addParentEdges_cons, ih, addEdge_edges]
    constructor
    · rintro ((hg | rfl) | ⟨q, hq, rfl⟩)
      · exact Or.inl hg
      · exact Or.inr ⟨p, List.mem_cons_self _ _, rfl⟩
      · exact Or.inr ⟨q, List.mem_cons_of_mem _ hq, rfl⟩
    · rintro (hg | ⟨q, hq, rfl⟩)
      · exact Or.inl (Or.inl hg)
      · rcases List.mem_cons.mp hq with rfl | hq2
        · exact Or.inl (Or.inr rfl)
        · exact Or.inr ⟨q, hq2, rfl⟩

theorem addParentEdges_nodes (w1 : String) (parents : List Cand)
    (g : FGraph) (n : NodeId) :
    n ∈ (addParentEdges g w1 parents).nodes
      ↔ n ∈ g.nodes ∨ ∃ p ∈ parents, (n = p.id ∨ n = some w1) := by
  induction parents generalizing g with
  | nil => simp [addParentEdges]
  | cons p ps ih =>
    rw [addParentEdges_cons, ih]
    constructor
    · rintro (hadd | ⟨q, hq, h⟩)
      · rcases (addEdge_nodes g p.id (some w1) n).mp hadd with hg | h | h
        · exact Or.inl hg
        · exact Or.inr ⟨p, List.mem_cons_self _ _, Or.inl h⟩
        · exact Or.inr ⟨p, List.mem_cons_self _ _, Or.inr h⟩
      · exact Or.inr ⟨q, List.mem_cons_of_mem _ hq, h⟩
    · rintro (hg | ⟨q, hq, h⟩)
      · exact Or.inl ((addEdge_nodes g p.id (some w1) n).mpr (Or.inl hg))
      · rcases List.mem_cons.mp hq with rfl | hq2
        · exact Or.inl ((addEdge_nodes g q.id (some w1) n).mpr (Or.inr h))
        · exact Or.inr ⟨q, hq2, h⟩

theorem buildGraphAux_cons (pm : String → List Cand) (po : Bool) (g : FGraph)
    (w1 lab par : String) (rs : List Row) :
    buildGraphAux pm po g ((w1, lab, par) :: rs)
      = match nodeAction w1 (pm w1) po with
        | .forestError => .error "Nodes with no parents - forest detected"
        | .silentRoot => buildGraphAux pm po g rs
        | .warnDisconnected => buildGraphAux pm po g rs
        | .addEdges => buildGraphAux pm po (addParentEdges g w1 (pm w1)) rs :=
  rfl

theorem nodeAction_addEdges_iff (w1 : String) (parents : List Cand)
    (po : Bool) :
    nodeAction w1 parents po = NodeAction.addEdges ↔ allNullB parents = false := by
  unfold nodeAction
  cases hA : allNullB parents
  · simp
  · rw [if_pos rfl]
    split_ifs <;> simp

theorem buildGraphAux_spec (pm : String → List Cand) (po : Bool) :
    ∀ (data : List Row) (g h : FGraph),
      buildGraphAux pm po g data = .ok h →
      (∀ e, e ∈ h.edges ↔ e ∈ g.edges ∨
        ∃ r ∈ data, allNullB (pm r.1) = false ∧
          ∃ p ∈ pm r.1, e = (p.id, some r.1)) ∧
      (∀ n, n ∈ h.nodes ↔ n ∈ g.nodes ∨
        ∃ r ∈ data, allNullB (pm r.1) = false ∧
          ∃ p ∈ pm r.1, (n = p.id ∨ n = some r.1)) := by
  intro data
  induction data with
  | nil =>
    intro g h hok
    cases hok
    simp
  | cons r rs ih =>
    intro g h hok
    obtain ⟨w1, lab, par⟩ := r
    rw [buildGraphAux_cons] at hok
    by_cases hA : allNullB (pm w1) = true
    · cases hna : nodeAction w1 (pm w1) po with
      | forestError =>
        rw [hna] at hok
        cases hok
      | addEdges =>
        rw [(nodeAction_addEdges_iff w1 (pm w1) po).mp hna] at hA
        cases hA
      | silentRoot =>
        rw [hna] at hok
        obtain ⟨he, hn⟩ := ih g h hok
        constructor
        · intro e
          rw [he e]
          simp [List.mem_cons, hA]
        · intro n
          rw [hn n]
          simp [List.mem_cons, hA]
      | warnDisconnected =>
        rw [hna] at hok
        obtain ⟨he, hn⟩ := ih g h hok
        constructor
        · intro e
          rw [he e]
          simp [List.mem_cons, hA]
        · intro n
          rw [hn n]
          simp [List.mem_cons, hA]
    · have hA' : allNullB (pm w1) = false := Bool.eq_false_iff.mpr hA
      rw [(nodeAction_addEdges_iff w1 (pm w1) po).mpr hA'] at hok
      obtain ⟨he, hn⟩ := ih _ h hok
      constructor
      · intro e
        rw [he e, addParentEdges_edges]
        constructor
        · rintro ((hg | ⟨p, hp, rfl⟩) | ⟨r2, hr2, hcontrib⟩)
          · exact Or.inl hg
          · exact Or.inr ⟨(w1, lab, par), List.mem_cons_self _ _, hA', p, hp, rfl⟩
          · exact Or.inr ⟨r2, List.mem_cons_of_mem _ hr2, hcontrib⟩
        · rintro (hg | ⟨r2, hr2, hcontrib⟩)
          · exact Or.inl (Or.inl hg)
          · rcases List.mem_cons.mp hr2 with rfl | hr2'
            · obtain ⟨-, p, hp, rfl⟩ := hcontrib
              exact Or.inl (Or.inr ⟨p, hp, rfl⟩)
            · exact Or.inr ⟨r2, hr2', hcontrib⟩
      · intro n
        rw [hn n, addParentEdges_nodes]
        constructor
        · rintro ((hg | ⟨p, hp, hid⟩) | ⟨r2, hr2, hcontrib⟩)
          · exact Or.inl hg
          · exact Or.inr ⟨(w1, lab, par), List.mem_cons_self _ _, hA', p, hp, hid⟩
          · exact Or.inr ⟨r2, List.mem_cons_of_mem _ hr2, hcontrib⟩
        · rintro (hg | ⟨r2, hr2, hcontrib⟩)
          · exact Or.inl (Or.inl hg)
          · rcases List.mem_cons.mp hr2 with rfl | hr2'
            · obtain ⟨-, p, hp, hid⟩ := hcontrib
              exact Or.inl (Or.inr ⟨p, hp, hid⟩)
            · exact Or.inr ⟨r2, hr2', hcontrib⟩

/-- Concrete unit used to falsify claim C8: witness `A` with no parents and
witness `B` whose selection is the synthetic `('OL_PARENT', -1, 1)`. -/
def demoRows : List Row := [("A", "a", "x"), ("B", "b", "x")]

/-- Per-witness selections for `demoRows`. -/
def demoPm : String → List Cand :=
  fun w => if w = "B" then [⟨some "OL_PARENT", -1, 1⟩] else []

/-- The graph the builder produces for `demoRows`/`demoPm`. -/
def demoGraph : FGraph :=
  ⟨[some "A", some "B", some "OL_PARENT"], [(some "OL_PARENT", some "B")]⟩

/-- Claim C8 counterexample: with witness set `{A, B}` and the synthetic
`OL_PARENT` selection for `B`, the built graph contains the extra node
`OL_PARENT` (not a witness of the unit) and the edge `OL_PARENT → B`;
the source's edge loop (line 295) runs for *every* candidate of a selection
that passes the orphan check, the synthetic one included. -/
theorem c8_counterexample :
    buildGraph demoRows demoPm false = Except.ok demoGraph ∧
    (some "OL_PARENT" : NodeId) ∈ demoGraph.nodes ∧
    ((some "OL_PARENT", some "B") : NodeId × NodeId) ∈ demoGraph.edges ∧
    (some "OL_PARENT" : NodeId) ∉ demoRows.map (fun d => (some d.1 : NodeId)) :=
  ⟨rfl, by decide, by decide, by decide⟩

/-- Claim C8 (amended): in a successfully built FlowGraph, an edge
`ancestor → witness` exists exactly for the candidates of selections that
pass the orphan check (not all-null), *including* null-ancestor candidates
mixed into such selections and the synthetic `OL_PARENT` candidate; the node
set is the unit's witness set plus one node per such ancestor id that is not
already a witness node. -/
theorem c8_graph_membership (data : List Row) (pm : String → List Cand)
    (po : Bool) (h : FGraph) (hok : buildGraph data pm po = .ok h)
    (e : NodeId × NodeId) (n : NodeId) :
    (e ∈ h.edges ↔
      ∃ r ∈ data, allNullB (pm r.1) = false ∧
        ∃ p ∈ pm r.1, e = (p.id, some r.1)) ∧
    (n ∈ h.nodes ↔
      (∃ r ∈ data, n = some r.1) ∨
      ∃ r ∈ data, allNullB (pm r.1) = false ∧ ∃ p ∈ pm r.1, n = p.id) := by
  obtain ⟨he, hn⟩ := buildGraphAux_spec pm po data _ h hok
  constructor
  · rw [he e]
    simp
  · rw [hn n]
    have hmap : n ∈ (List.map (fun d => some d.1) data : List NodeId)
        ↔ ∃ r ∈ data, n = some r.1 := by
      rw [List.mem_map]
      constructor
      · rintro ⟨r, hr, rfl⟩
        exact ⟨r, hr, rfl⟩
      · rintro ⟨r, hr, rfl⟩
        exact ⟨r, hr, rfl⟩
    rw [hmap]
    constructor
    · rintro (hw | ⟨r, hr, hsurv, p, hp, (h1 | h2)⟩)
      · exact Or.inl hw
      · exact Or.inr ⟨r, hr, hsurv, p, hp, h1⟩
      · exact Or.inl ⟨r, hr, h2⟩
    · rintro (hw | ⟨r, hr, hsurv, p, hp, h1⟩)
      · exact Or.inl hw
      · exact Or.inr ⟨r, hr, hsurv, p, hp, Or.inl h1⟩

theorem c8_graph_membership_witness :
    (((some "OL_PARENT", some "B") : NodeId × NodeId) ∈ demoGraph.edges ↔
      ∃ r ∈ demoRows, allNullB (demoPm r.1) = false ∧
        ∃ p ∈ demoPm r.1,
          ((some "OL_PARENT", some "B") : NodeId × NodeId) = (p.id, some r.1)) ∧
    ((some "OL_PARENT" : NodeId) ∈ demoGraph.nodes ↔
      (∃ r ∈ demoRows, (some "OL_PARENT" : NodeId) = some r.1) ∨
      ∃ r ∈ demoRows, allNullB (demoPm r.1) = false ∧
        ∃ p ∈ demoPm r.1, (some "OL_PARENT" : NodeId) = p.id) :=
  c8_graph_membership demoRows demoPm false demoGraph rfl
    (some "OL_PARENT", some "B") (some "OL_PARENT")

/-- `get_parents` on a single connectivity value is exactly `selectOne` on
that value's combinations: the single-pass reading of the selection loop. -/
theorem get_parents_single (provider : Int → Option (List Combination))
    (w1Parent : String) (conn : Int) :
    get_parents provider w1Parent [conn]
      = (provider conn).map
          (fun combos => [(conn, selectOne combos w1Parent)]) := by
  cases hp : provider conn with
  | none => simp [get_parents, get_parents_aux, hp]
  | some combos =>
    simp [get_parents, get_parents_aux, hp, selectOne, selState]
